import Mathlib

/-!
Verification of the data-enrichment and formula-annotation pipeline of
`generate_docs.py` (ladisk/ladisk_shakers).

Strings are modelled as `List Char` (a Python `str` of its characters; lines
are taken without their trailing newline, which is sound here because `'\n'`
can only be consumed by `\s*` pieces of the regexes and never appears inside
a captured group of a newline-free line).  Python dicts that are only read
are modelled as association lists; the mutable dicts handled by
`enrich_toml_data` / `process_toml_files` are modelled with an explicit heap
of addressed dictionaries, so that Python's aliasing (shallow copies, in-place
mutation) is represented faithfully.
-/

/-- Characters recognised by Python's `str.strip()` and by `\s` in `re`
(ASCII fragment; the files processed are ASCII). -/
def isPySpace (c : Char) : Bool :=
  c = ' ' || c = '\t' || c = '\n' || c = '\r' || c = '\x0b' || c = '\x0c'

/-- Characters matched by `\w` in `re` (ASCII fragment). -/
def isWordChar (c : Char) : Bool :=
  c.isAlphanum || c = '_'

/-- The characters of a string literal, as the `List Char` model of a Python str. -/
def strL (s : String) : List Char := s.data

/-- Python `str.strip()`: drop whitespace from both ends. -/
def pyStrip (s : List Char) : List Char :=
  ((s.dropWhile isPySpace).reverse.dropWhile isPySpace).reverse

/-- First-match lookup in an association list (Python dict read `d[k]` /
`d.get(k)`; keys are unique in every dict the program builds). -/
def lookupC {κ α : Type} [DecidableEq κ] : List (κ × α) → κ → Option α
  | [], _ => none
  | (k', v) :: rest, k => if k' = k then some v else lookupC rest k

/-- Python dict write `d[k] = v`: replace the value at an existing key in
place, otherwise append the new entry at the end. -/
def assocSet {κ α : Type} [DecidableEq κ] : List (κ × α) → κ → α → List (κ × α)
  | [], k, v => [(k, v)]
  | (k', v') :: rest, k, v =>
      if k' = k then (k, v) :: rest else (k', v') :: assocSet rest k v

theorem lookupC_assocSet {κ α : Type} [DecidableEq κ]
    (d : List (κ × α)) (k k' : κ) (v : α) :
    lookupC (assocSet d k v) k' = if k = k' then some v else lookupC d k' := by
  induction d with
  | nil =>
      by_cases h : k = k' <;> simp [assocSet, lookupC, h]
  | cons p rest ih =>
      obtain ⟨k0, v0⟩ := p
      by_cases h0 : k0 = k
      · subst h0
        by_cases h : k0 = k' <;> simp [assocSet, lookupC, h]
      · by_cases h : k0 = k'
        · subst h
          have hkk : ¬ k = k0 := fun he => h0 he.symm
          simp [assocSet, lookupC, h0, hkk]
        · simp [assocSet, lookupC, h0, h, ih]

theorem lookupC_assocSet_self {κ α : Type} [DecidableEq κ]
    (d : List (κ × α)) (k : κ) (v : α) :
    lookupC (assocSet d k v) k = some v := by
  simp [lookupC_assocSet]

theorem lookupC_assocSet_ne {κ α : Type} [DecidableEq κ]
    (d : List (κ × α)) (k k' : κ) (v : α) (h : k ≠ k') :
    lookupC (assocSet d k v) k' = lookupC d k' := by
  simp [lookupC_assocSet, h]

theorem lookupC_append_some {κ α : Type} [DecidableEq κ]
    {l1 : List (κ × α)} (l2 : List (κ × α)) {k : κ} {v : α}
    (h : lookupC l1 k = some v) :
    lookupC (l1 ++ l2) k = some v := by
  induction l1 with
  | nil => simp [lookupC] at h
  | cons p rest ih =>
      obtain ⟨k0, v0⟩ := p
      by_cases h0 : k0 = k
      · simp_all [lookupC]
      · simp_all [lookupC]

theorem lookupC_append_none {κ α : Type} [DecidableEq κ]
    {l1 : List (κ × α)} (l2 : List (κ × α)) {k : κ}
    (h : lookupC l1 k = none) :
    lookupC (l1 ++ l2) k = lookupC l2 k := by
  induction l1 with
  | nil => simp [lookupC]
  | cons p rest ih =>
      obtain ⟨k0, v0⟩ := p
      by_cases h0 : k0 = k
      · simp_all [lookupC]
      · simp_all [lookupC]

theorem lookupC_mem_keys {κ α : Type} [DecidableEq κ]
    {l : List (κ × α)} {k : κ} {v : α} (h : lookupC l k = some v) :
    k ∈ l.map Prod.fst := by
  induction l with
  | nil => simp [lookupC] at h
  | cons p rest ih =>
      obtain ⟨k0, v0⟩ := p
      by_cases h0 : k0 = k
      · simp [h0]
      · simp [lookupC, h0] at h
        simp [ih h]

theorem lookupC_mem {κ α : Type} [DecidableEq κ]
    {l : List (κ × α)} {k : κ} {v : α} (h : lookupC l k = some v) :
    (k, v) ∈ l := by
  induction l with
  | nil => simp [lookupC] at h
  | cons p rest ih =>
      obtain ⟨k0, v0⟩ := p
      by_cases h0 : k0 = k
      · subst h0
        simp [lookupC] at h
        simp [h]
      · simp [lookupC, h0] at h
        simp [ih h]

theorem lookupC_isSome_of_mem_keys {κ α : Type} [DecidableEq κ]
    {l : List (κ × α)} {k : κ} (h : k ∈ l.map Prod.fst) :
    (lookupC l k).isSome := by
  induction l with
  | nil => simp at h
  | cons p rest ih =>
      obtain ⟨k0, v0⟩ := p
      by_cases h0 : k0 = k
      · simp [lookupC, h0]
      · have hm : k ∈ rest.map Prod.fst := by
          rcases List.mem_cons.mp h with h1 | h1
          · exact absurd h1.symm h0
          · exact h1
        simpa [lookupC, h0] using ih hm

theorem lookupC_none_of_not_mem_keys {κ α : Type} [DecidableEq κ]
    {l : List (κ × α)} {k : κ} (h : k ∉ l.map Prod.fst) :
    lookupC l k = none := by
  induction l with
  | nil => simp [lookupC]
  | cons p rest ih =>
      obtain ⟨k0, v0⟩ := p
      have h0 : ¬ k0 = k := by
        intro he
        exact h (by simp [he])
      have hm : k ∉ rest.map Prod.fst := by
        intro hmem
        exact h (by simp [hmem])
      simp [lookupC, h0, ih hm]

theorem assocSet_keys {κ α : Type} [DecidableEq κ]
    {l : List (κ × α)} {k : κ} (v : α) (h : (lookupC l k).isSome) :
    (assocSet l k v).map Prod.fst = l.map Prod.fst := by
  induction l with
  | nil => simp [lookupC] at h
  | cons p rest ih =>
      obtain ⟨k0, v0⟩ := p
      by_cases h0 : k0 = k
      · simp [assocSet, h0]
      · simp [lookupC, h0] at h
        simp [assocSet, h0, ih h]

/-! ### Formula parser (`parse_check_formula`, generate_docs.py lines 72-110) -/

/-- Test `s.take p.length = p`: the pattern `p` occurs at the start of `s`. -/
def startsWith (p s : List Char) : Bool := decide (s.take p.length = p)

/-- Index of the first occurrence of `p` as a substring of `s`
(Python `s.find(p)` / the split point of `s.split(p, 1)`), `none` when `p`
does not occur (`p in s` is false). -/
def firstOcc (p : List Char) : List Char → Option Nat
  | [] => if startsWith p [] then some 0 else none
  | c :: t =>
      if startsWith p (c :: t) then some 0
      else (firstOcc p t).map (· + 1)

/-- Python substring test `p in s`. -/
def containsSub (p s : List Char) : Bool := (firstOcc p s).isSome

/-- Python `s.split(sep, 1)`. -/
def pySplitOnce (s sep : List Char) : List (List Char) :=
  match firstOcc sep s with
  | some i => [s.take i, s.drop (i + sep.length)]
  | none => [s]

theorem firstOcc_some_startsWith {p s : List Char} {i : Nat}
    (h : firstOcc p s = some i) : startsWith p (s.drop i) = true := by
  induction s generalizing i with
  | nil =>
      by_cases hp : startsWith p [] = true
      · simp [firstOcc, hp] at h
        subst h
        simpa using hp
      · simp [firstOcc, hp] at h
  | cons c t ih =>
      by_cases hp : startsWith p (c :: t) = true
      · simp [firstOcc, hp] at h
        subst h
        simpa using hp
      · simp [firstOcc, hp] at h
        obtain ⟨j, hj, rfl⟩ := h
        simpa using ih hj

theorem firstOcc_some_min {p s : List Char} {i : Nat}
    (h : firstOcc p s = some i) :
    ∀ j, j < i → startsWith p (s.drop j) = false := by
  induction s generalizing i with
  | nil =>
      by_cases hp : startsWith p [] = true
      · simp [firstOcc, hp] at h
        subst h
        intro j hj
        exact absurd hj (Nat.not_lt_zero j)
      · simp [firstOcc, hp] at h
  | cons c t ih =>
      by_cases hp : startsWith p (c :: t) = true
      · simp [firstOcc, hp] at h
        subst h
        intro j hj
        exact absurd hj (Nat.not_lt_zero j)
      · simp [firstOcc, hp] at h
        obtain ⟨j0, hj0, rfl⟩ := h
        intro j hj
        match j with
        | 0 => simpa using hp
        | j + 1 =>
            have : j < j0 := Nat.lt_of_succ_lt_succ hj
            simpa using ih hj0 j this

theorem firstOcc_none {p s : List Char}
    (h : firstOcc p s = none) :
    ∀ j, startsWith p (s.drop j) = false := by
  induction s with
  | nil =>
      by_cases hp : startsWith p [] = true
      · simp [firstOcc, hp] at h
      · intro j
        simpa [List.drop_nil] using hp
  | cons c t ih =>
      by_cases hp : startsWith p (c :: t) = true
      · simp [firstOcc, hp] at h
      · simp [firstOcc, hp] at h
        intro j
        match j with
        | 0 => simpa using hp
        | j + 1 => simpa using ih h j

theorem startsWith_decomp {p s : List Char} (h : startsWith p s = true) :
    s = p ++ s.drop p.length := by
  have ht : s.take p.length = p := by simpa [startsWith] using h
  conv_lhs => rw [← List.take_append_drop p.length s]
  rw [ht]

theorem firstOcc_decomp {p s : List Char} {i : Nat}
    (h : firstOcc p s = some i) :
    s = s.take i ++ p ++ s.drop (i + p.length) := by
  have h1 := startsWith_decomp (firstOcc_some_startsWith h)
  have h2 : (s.drop i).drop p.length = s.drop (i + p.length) := by
    rw [List.drop_drop]
  conv_lhs => rw [← List.take_append_drop i s]
  rw [h1, h2, List.append_assoc]

/-- The result record of `parse_check_formula`:
`{'left': ..., 'operator': ..., 'right': ..., 'full': ...}`. -/
structure ParsedFormula where
  left : List Char
  operator : Option (List Char)
  right : Option (List Char)
  full : List Char
deriving DecidableEq, Repr

/-- The fixed operator priority list `['>=', '<=', '==', '!=', '>', '<']`. -/
def operatorsList : List (List Char) :=
  [strL ">=", strL "<=", strL "==", strL "!=", strL ">", strL "<"]

/-- The operator scan loop of `parse_check_formula`: first operator of the
list that occurs as a substring wins; split at its first occurrence; if the
split does not give exactly two parts the loop falls through (this cannot
happen for a nonempty separator that occurs); if no operator occurs, the
whole (stripped) string is the left expression. -/
def tryOperators (s : List Char) : List (List Char) → ParsedFormula
  | [] =>
      { left := pyStrip s, operator := none, right := none, full := pyStrip s }
  | op :: rest =>
      if containsSub op s then
        match pySplitOnce s op with
        | [a, b] =>
            { left := pyStrip a, operator := some op,
              right := pyStrip b, full := pyStrip s }
        | _ => tryOperators s rest
      else tryOperators s rest

/-- Behaviour of `parse_check_formula` on a value that is already a `str`. -/
def parse_check_formula_str (s : List Char) : ParsedFormula :=
  tryOperators s operatorsList

mutual
/-- Python values that can reach `parse_check_formula`: strings, numbers,
booleans, `None`, and (nested) dicts.  Floats are not modelled. -/
inductive PyVal where
  | pstr : List Char → PyVal
  | pint : Int → PyVal
  | pbool : Bool → PyVal
  | pnone : PyVal
  | pdict : PyDict → PyVal
deriving DecidableEq, Repr
/-- Entries of a Python dict value, as a separate inductive so that the
mutual recursion with `PyVal` is structural. -/
inductive PyDict where
  | nil : PyDict
  | cons : List Char → PyVal → PyDict → PyDict
deriving DecidableEq, Repr
end

/-- Python `d.get(k, default)` on a `PyDict` (first matching key). -/
def pyDictGet : PyDict → List Char → Option PyVal
  | PyDict.nil, _ => none
  | PyDict.cons k v rest, k' => if k = k' then some v else pyDictGet rest k'

/-- Single-quote character, used by Python `repr` of strings. -/
def quoteChar : Char := Char.ofNat 39

/-- Opening curly brace character, used by Python `repr` of dicts. -/
def lcurly : Char := Char.ofNat 123

/-- Closing curly brace character, used by Python `repr` of dicts. -/
def rcurly : Char := Char.ofNat 125

mutual
/-- Python `repr` (escaping of special characters inside strings is not
modelled; no claim depends on it). -/
def pyRepr : PyVal → List Char
  | PyVal.pstr s => quoteChar :: (s ++ [quoteChar])
  | PyVal.pint n => strL (toString n)
  | PyVal.pbool true => strL "True"
  | PyVal.pbool false => strL "False"
  | PyVal.pnone => strL "None"
  | PyVal.pdict d => lcurly :: (pyReprEntries d ++ [rcurly])
/-- The comma-separated `'key': repr(value)` entries of a dict repr. -/
def pyReprEntries : PyDict → List Char
  | PyDict.nil => []
  | PyDict.cons k v PyDict.nil =>
      quoteChar :: (k ++ [quoteChar]) ++ strL ": " ++ pyRepr v
  | PyDict.cons k v (PyDict.cons k' v' rest) =>
      quoteChar :: (k ++ [quoteChar]) ++ strL ": " ++ pyRepr v ++ strL ", " ++
        pyReprEntries (PyDict.cons k' v' rest)
end

/-- Python `str(x)` for the values above (`str` of a `str` is itself; for the
others `str` agrees with `repr`). -/
def pyStr : PyVal → List Char
  | PyVal.pstr s => s
  | v => pyRepr v

/-- Model of `parse_check_formula` (generate_docs.py lines 72-110): unwrap a dict
input through its `'value'` field (default `''`), coerce any remaining
non-string to its string representation, then scan for operators. -/
def parse_check_formula (v : PyVal) : ParsedFormula :=
  let v1 := match v with
    | PyVal.pdict d => (pyDictGet d (strL "value")).getD (PyVal.pstr [])
    | x => x
  let s := match v1 with
    | PyVal.pstr s => s
    | x => pyStr x
  parse_check_formula_str s

theorem tryOperators_find (s : List Char) (ops : List (List Char)) :
    (∀ op i, List.find? (fun o => containsSub o s) ops = some op →
        firstOcc op s = some i →
        tryOperators s ops =
          { left := pyStrip (s.take i), operator := some op,
            right := pyStrip (s.drop (i + op.length)), full := pyStrip s }) ∧
    (List.find? (fun o => containsSub o s) ops = none →
        tryOperators s ops =
          { left := pyStrip s, operator := none, right := none, full := pyStrip s }) := by
  induction ops with
  | nil =>
      refine ⟨?_, ?_⟩
      · intro op i hfind
        simp [List.find?] at hfind
      · intro _
        rfl
  | cons op0 rest ih =>
      by_cases hc : containsSub op0 s = true
      · obtain ⟨j, hj⟩ := Option.isSome_iff_exists.mp (by simpa [containsSub] using hc)
        refine ⟨?_, ?_⟩
        · intro op i hfind hocc
          rw [List.find?_cons_of_pos (p := fun o => containsSub o s) rest hc] at hfind
          obtain rfl : op0 = op := Option.some.inj hfind
          rw [hj] at hocc
          obtain rfl : j = i := Option.some.inj hocc
          simp [tryOperators, hc, pySplitOnce, hj]
        · intro hfind
          rw [List.find?_cons_of_pos (p := fun o => containsSub o s) rest hc] at hfind
          exact absurd hfind (by simp)
      · have hcf : containsSub op0 s = false := by simpa using hc
        have hstep : tryOperators s (op0 :: rest) = tryOperators s rest := by
          simp [tryOperators, hcf]
        refine ⟨?_, ?_⟩
        · intro op i hfind hocc
          rw [List.find?_cons_of_neg (p := fun o => containsSub o s) rest (by simp [hcf])]
            at hfind
          rw [hstep]
          exact ih.1 op i hfind hocc
        · intro hfind
          rw [List.find?_cons_of_neg (p := fun o => containsSub o s) rest (by simp [hcf])]
            at hfind
          rw [hstep]
          exact ih.2 hfind

/-- C1.  For every input string `s`, `parse_check_formula` scans the six
comparators in the fixed priority order `>=, <=, ==, !=, >, <`; if one of
them occurs as a substring of `s`, the first such operator of the list is
chosen, `s` is split at that operator's first occurrence (no earlier
position carries an occurrence) into exactly two parts, and the result is
`{left = first part stripped, operator = the operator, right = second part
stripped, full = s stripped}`; if none occurs, the result is
`{left = s stripped, operator = None, right = None, full = s stripped}`. -/
theorem C1_parse_check_formula (s : List Char) :
    (∀ op i, List.find? (fun o => containsSub o s) operatorsList = some op →
        firstOcc op s = some i →
        s = s.take i ++ op ++ s.drop (i + op.length) ∧
        (∀ j, j < i → startsWith op (s.drop j) = false) ∧
        parse_check_formula (PyVal.pstr s) =
          { left := pyStrip (s.take i), operator := some op,
            right := pyStrip (s.drop (i + op.length)), full := pyStrip s }) ∧
    (List.find? (fun o => containsSub o s) operatorsList = none →
        parse_check_formula (PyVal.pstr s) =
          { left := pyStrip s, operator := none, right := none, full := pyStrip s }) := by
  have hpf : parse_check_formula (PyVal.pstr s) = tryOperators s operatorsList := rfl
  refine ⟨?_, ?_⟩
  · intro op i hfind hocc
    exact ⟨firstOcc_decomp hocc, firstOcc_some_min hocc,
      hpf.trans ((tryOperators_find s operatorsList).1 op i hfind hocc)⟩
  · intro hfind
    exact hpf.trans ((tryOperators_find s operatorsList).2 hfind)

/-- Witness for C1 at the concrete input `"a >= b"`. -/
theorem C1_parse_check_formula_witness :
    parse_check_formula (PyVal.pstr (strL "a >= b")) =
      { left := strL "a", operator := some (strL ">="),
        right := strL "b", full := strL "a >= b" } := by
  have h :=
    ((C1_parse_check_formula (strL "a >= b")).1 (strL ">=") 2 (by decide) (by decide)).2.2
  exact h.trans (by decide)

/-- C10.  `parse_check_formula` is total over all input shapes (a total Lean
function; no exception path exists): a string is parsed directly; a dict
input is unwrapped through its `'value'` field and a dict with no `'value'`
key yields `{left: '', operator: None, right: None, full: ''}`; any
non-string non-dict input is parsed through its string representation. -/
theorem C10_parse_check_formula_shapes (v : PyVal) :
    (∀ s, v = PyVal.pstr s → parse_check_formula v = parse_check_formula_str s) ∧
    (∀ d dv, v = PyVal.pdict d → pyDictGet d (strL "value") = some dv →
        parse_check_formula v =
          parse_check_formula_str
            (match dv with | PyVal.pstr s => s | x => pyStr x)) ∧
    (∀ d, v = PyVal.pdict d → pyDictGet d (strL "value") = none →
        parse_check_formula v =
          { left := [], operator := none, right := none, full := [] }) ∧
    ((∀ s, v ≠ PyVal.pstr s) → (∀ d, v ≠ PyVal.pdict d) →
        parse_check_formula v = parse_check_formula_str (pyStr v)) := by
  refine ⟨?_, ?_, ?_, ?_⟩
  · intro s h
    subst h
    rfl
  · intro d dv h hget
    subst h
    cases dv <;> simp [parse_check_formula, hget, pyStr]
  · intro d h hget
    subst h
    simp [parse_check_formula, hget]
    decide
  · intro h1 h2
    cases v with
    | pstr s => exact absurd rfl (h1 s)
    | pdict d => exact absurd rfl (h2 d)
    | pint n => rfl
    | pbool b => cases b <;> rfl
    | pnone => rfl

/-- Witness for C10 at the concrete input `{}` (a dict with no `'value'` key). -/
theorem C10_parse_check_formula_shapes_witness :
    parse_check_formula (PyVal.pdict PyDict.nil) =
      { left := [], operator := none, right := none, full := [] } :=
  (C10_parse_check_formula_shapes (PyVal.pdict PyDict.nil)).2.2.1 PyDict.nil rfl (by decide)

/-! ### Comment extractor (`parse_toml_comments`, generate_docs.py lines 22-50)

The line regex `\s*(\w+)\s*=\s*(.+?)\s*#\s*(.+)` is translated piecewise,
mirroring the backtracking order of Python's `re` engine (greedy pieces try
the longest extent first, the lazy `(.+?)` the shortest, and on failure the
deepest choice point backtracks first).  Lines are modelled without their
trailing newline. -/

/-- Tail `\s*(.+)` of the line regex after the `#` was matched: the greedy
`\s*` keeps as much whitespace as it can while still leaving at least one
character for `(.+)`, which then greedily captures the rest of the line. -/
def tailComment (cs : List Char) : Option (List Char) :=
  match cs with
  | [] => none
  | _ :: _ =>
      let w := (cs.takeWhile isPySpace).length
      if w = cs.length then some (cs.drop (w - 1)) else some (cs.drop w)

/-- Scan of the lazy `(.+?)\s*#` piece: try value lengths `vlen, vlen+1, ...`
(shortest first); for each, skip the greedy inner `\s*` and require `#`,
then match the tail; on tail failure the lazy group grows.  The fuel
argument bounds the scan by the line length. -/
def findHashAux (cs : List Char) : Nat → Nat → Option (List Char)
  | 0, _ => none
  | fuel + 1, vlen =>
      if vlen ≤ cs.length then
        match (cs.drop vlen).dropWhile isPySpace with
        | '#' :: rest =>
            match tailComment rest with
            | some cmt => some cmt
            | none => findHashAux cs fuel (vlen + 1)
        | _ => findHashAux cs fuel (vlen + 1)
      else none

/-- Piece `(.+?)\s*#\s*(.+)` starting with a value of at least one character. -/
def findHash (cs : List Char) : Option (List Char) :=
  findHashAux cs (cs.length + 1) 1

/-- The greedy `\s*` after the `=`: try the longest whitespace run first,
backtracking one character at a time. -/
def outerSearch (cs : List Char) : Nat → Option (List Char)
  | 0 => findHash cs
  | o + 1 =>
      match findHash (cs.drop (o + 1)) with
      | some cmt => some cmt
      | none => outerSearch cs o

/-- Piece `\s*(.+?)\s*#\s*(.+)`: what remains of the line regex after the `=`. -/
def matchValueComment (cs : List Char) : Option (List Char) :=
  outerSearch cs (cs.takeWhile isPySpace).length

/-- Model of `re.match(r'\s*(\w+)\s*=\s*(.+?)\s*#\s*(.+)', line)`, returning the
captured key (group 1) and comment (group 3); `\s` and `\w` are disjoint, so
the leading greedy pieces never backtrack. -/
def lineMatch (l : List Char) : Option (List Char × List Char) :=
  let rest0 := l.dropWhile isPySpace
  let key := rest0.takeWhile isWordChar
  let rest1 := rest0.dropWhile isWordChar
  if key.isEmpty then none
  else
    match rest1.dropWhile isPySpace with
    | '=' :: rest3 => (matchValueComment rest3).map (fun c => (key, c))
    | _ => none

/-- Split a character list at its first `']'`. -/
def splitRB : List Char → Option (List Char × List Char)
  | [] => none
  | c :: cs =>
      if c = ']' then some ([], cs)
      else
        match splitRB cs with
        | some (a, b) => some (c :: a, b)
        | none => none

/-- The lazy `(.+?)\]` piece of the unit regex: the group takes at least one
character, then everything up to the first following `']'`. -/
def splitRBlazy : List Char → Option (List Char × List Char)
  | [] => none
  | c :: cs =>
      match splitRB cs with
      | some (a, b) => some (c :: a, b)
      | none => none

/-- Model of `re.match(r'\[(.+?)\]\s*(.*)', comment)`: on success `(unit, rest)`
where the unit is the raw bracket content (NOT stripped) and the rest has
its leading whitespace consumed by the greedy `\s*`; on failure
`unit = ''` and the whole comment is the description. -/
def unitDescOf (comment : List Char) : List Char × List Char :=
  match comment with
  | [] => ([], [])
  | ch :: rest =>
      if ch = '[' then
        match splitRBlazy rest with
        | some (u, after) => (u, after.dropWhile isPySpace)
        | none => ([], ch :: rest)
      else ([], ch :: rest)

/-- Metadata contributed by one line: the key together with the
`{'unit': ..., 'description': ...}` record (modelled as a pair) computed
from the stripped comment group. -/
def lineMeta (l : List Char) : Option (List Char × (List Char × List Char)) :=
  (lineMatch l).map (fun p => (p.1, unitDescOf (pyStrip p.2)))

/-- The `comments` mapping: key to `(unit, description)`. -/
abbrev Comments := List (List Char × (List Char × List Char))

/-- The body of the per-line loop of `parse_toml_comments`:
`comments[key] = {'unit': unit, 'description': description}`. -/
def processLine (acc : Comments) (l : List Char) : Comments :=
  match lineMeta l with
  | some (k, m) => assocSet acc k m
  | none => acc

/-- The whole per-line loop of `parse_toml_comments` over the file's lines. -/
def processLines (ls : List (List Char)) : Comments :=
  ls.foldl processLine []

/-- Outcome of reading the source file inside the `try` block: all lines
read; `open` itself raised; or an exception was raised after some prefix of
the lines had been processed. -/
inductive ReadOutcome where
  | ok : List (List Char) → ReadOutcome
  | openFail : ReadOutcome
  | failAfter : List (List Char) → ReadOutcome
deriving DecidableEq, Repr

/-- Model of `parse_toml_comments` (generate_docs.py lines 22-50): `comments = {}`;
process lines inside `try`; any exception is caught (a warning is printed,
which is not modelled) and the mapping accumulated so far is returned. -/
def parse_toml_comments : ReadOutcome → Comments
  | ReadOutcome.ok ls => processLines ls
  | ReadOutcome.openFail => []
  | ReadOutcome.failAfter ls => processLines ls

theorem splitRB_some : ∀ {cs a b : List Char},
    splitRB cs = some (a, b) → cs = a ++ ']' :: b ∧ ']' ∉ a := by
  intro cs
  induction cs with
  | nil => intro a b h; simp [splitRB] at h
  | cons c t ih =>
      intro a b h
      by_cases hc : c = ']'
      · subst hc
        simp [splitRB] at h
        obtain ⟨rfl, rfl⟩ := h
        simp
      · simp [splitRB, hc] at h
        match hsp : splitRB t with
        | none => rw [hsp] at h; simp at h
        | some (a', b') =>
            rw [hsp] at h
            simp at h
            obtain ⟨rfl, rfl⟩ := h
            obtain ⟨hdec, hnot⟩ := ih hsp
            refine ⟨by simp [hdec], ?_⟩
            simp [hc]
            refine ⟨fun he => hc he.symm, hnot⟩

theorem splitRB_of_decomp : ∀ (a b : List Char), ']' ∉ a →
    splitRB (a ++ ']' :: b) = some (a, b) := by
  intro a
  induction a with
  | nil => intro b _; simp [splitRB]
  | cons c a' ih =>
      intro b hnot
      have hc : ¬ c = ']' := by
        intro he
        exact hnot (by simp [he])
      have ha' : ']' ∉ a' := by
        intro hmem
        exact hnot (by simp [hmem])
      simp [splitRB, hc, ih b ha']

theorem splitRBlazy_of_decomp (c0 : Char) (u b : List Char) (hnot : ']' ∉ u) :
    splitRBlazy (c0 :: (u ++ ']' :: b)) = some (c0 :: u, b) := by
  simp [splitRBlazy, splitRB_of_decomp u b hnot]

theorem splitRBlazy_some_decomp : ∀ {cs u b : List Char},
    splitRBlazy cs = some (u, b) →
    ∃ c0 u', u = c0 :: u' ∧ cs = c0 :: (u' ++ ']' :: b) ∧ ']' ∉ u' := by
  intro cs u b h
  match cs with
  | [] => simp [splitRBlazy] at h
  | c :: t =>
      simp [splitRBlazy] at h
      match hsp : splitRB t with
      | none => rw [hsp] at h; simp at h
      | some (a', b') =>
          rw [hsp] at h
          simp at h
          obtain ⟨rfl, rfl⟩ := h
          obtain ⟨hdec, hnot⟩ := splitRB_some hsp
          exact ⟨c, a', rfl, by simp [hdec], hnot⟩

theorem unitDescOf_of_decomp (c0 : Char) (u rest : List Char) (hnot : ']' ∉ u) :
    unitDescOf ('[' :: c0 :: (u ++ ']' :: rest)) =
      (c0 :: u, rest.dropWhile isPySpace) := by
  simp [unitDescOf, splitRBlazy_of_decomp c0 u rest hnot]

theorem unitDescOf_default (cm : List Char)
    (h : ∀ c0 u rest, cm = '[' :: c0 :: (u ++ ']' :: rest) → ']' ∉ u → False) :
    unitDescOf cm = ([], cm) := by
  match cm with
  | [] => rfl
  | ch :: rest =>
      by_cases hch : ch = '['
      · subst hch
        match hsp : splitRBlazy rest with
        | none => simp [unitDescOf, hsp]
        | some (u, b) =>
            obtain ⟨c0, u', rfl, hdec, hnot⟩ := splitRBlazy_some_decomp hsp
            exact absurd (h c0 u' b (by rw [hdec]) hnot) (fun hf => hf)
      · simp [unitDescOf, hch]

/-- C5 counterexample.  On the line `x = 1 # [ mm ] d` the comment begins
with the bracketed token `[ mm ]`, whose trimmed unit would be `mm`; the
code stores the raw bracket content `' mm '`, which is not trimmed, so the
claim that unit and description are "both trimmed of surrounding
whitespace" is false on this input. -/
theorem C5_unit_not_trimmed_counterexample :
    parse_toml_comments (ReadOutcome.ok [strL "x = 1 # [ mm ] d"]) =
      [(strL "x", (strL " mm ", strL "d"))] ∧
    strL " mm " ≠ pyStrip (strL " mm ") := by
  refine ⟨?_, by decide⟩
  decide

/-- C5 (amended).  For every source line matched by the assignment-comment
regex, `parse_toml_comments` records a metadata entry for the captured
identifier (later lines may overwrite it; here the line is processed last):
if the stripped comment begins with a bracketed token, the unit is exactly
the raw text between the opening bracket and the first closing bracket
after at least one character (NOT trimmed of surrounding whitespace) and
the description is the remainder with its leading whitespace removed (it
carries no trailing whitespace because the comment was stripped first);
otherwise the unit is empty and the description is the whole stripped
comment. -/
theorem C5_line_metadata (pre : List (List Char)) (l k c : List Char)
    (h : lineMatch l = some (k, c)) :
    (∀ c0 u rest, pyStrip c = '[' :: c0 :: (u ++ ']' :: rest) → ']' ∉ u →
        lookupC (processLines (pre ++ [l])) k =
          some (c0 :: u, rest.dropWhile isPySpace)) ∧
    ((∀ c0 u rest, pyStrip c = '[' :: c0 :: (u ++ ']' :: rest) → ']' ∉ u → False) →
        lookupC (processLines (pre ++ [l])) k = some ([], pyStrip c)) := by
  have hml : lineMeta l = some (k, unitDescOf (pyStrip c)) := by
    simp [lineMeta, h]
  have hpl : processLines (pre ++ [l]) =
      processLine (processLines pre) l := by
    simp [processLines, List.foldl_append]
  have hlook : lookupC (processLines (pre ++ [l])) k =
      some (unitDescOf (pyStrip c)) := by
    rw [hpl]
    simp only [processLine, hml]
    exact lookupC_assocSet_self _ _ _
  refine ⟨?_, ?_⟩
  · intro c0 u rest hdec hnot
    rw [hlook, hdec, unitDescOf_of_decomp c0 u rest hnot]
  · intro hno
    rw [hlook, unitDescOf_default (pyStrip c) hno]

/-- Witness for C5 (amended) at the line `x = 1 # [mm] d`, processed after
an empty prefix of lines. -/
theorem C5_line_metadata_witness :
    lookupC (processLines ([] ++ [strL "x = 1 # [mm] d"])) (strL "x") =
      some ('m' :: strL "m", (strL " d").dropWhile isPySpace) :=
  (C5_line_metadata [] (strL "x = 1 # [mm] d") (strL "x") (strL "[mm] d")
      (by decide)).1 'm' (strL "m") (strL " d") (by decide) (by decide)

/-- C7 counterexample.  When reading fails after a line has already been
processed (e.g. a decode error midway through the file), the returned
mapping is the one accumulated so far, which is not empty — the claim that
an unreadable file always yields an empty mapping is false for mid-read
failures. -/
theorem C7_partial_mapping_counterexample :
    parse_toml_comments (ReadOutcome.failAfter [strL "x = 1 # [mm] d"]) =
      [(strL "x", (strL "mm", strL "d"))] ∧
    parse_toml_comments (ReadOutcome.failAfter [strL "x = 1 # [mm] d"]) ≠ [] := by
  refine ⟨?_, by decide⟩
  decide

/-- C7 (amended).  `parse_toml_comments` never propagates an exception (the
model is a total function over every read outcome; the warning print is not
modelled): when the file cannot be opened it returns the empty mapping, and
when reading fails after some lines it returns the mapping accumulated from
the lines read so far. -/
theorem C7_no_raise_accumulated :
    parse_toml_comments ReadOutcome.openFail = [] ∧
    (∀ ls, parse_toml_comments (ReadOutcome.failAfter ls) = processLines ls) ∧
    (∀ ls, parse_toml_comments (ReadOutcome.ok ls) = processLines ls) :=
  ⟨rfl, fun _ => rfl, fun _ => rfl⟩

theorem getLast?_cons_eq {α : Type} (a : α) (l : List α) :
    (a :: l).getLast? = some (l.getLast?.getD a) := by
  induction l generalizing a with
  | nil => rfl
  | cons b t ih =>
      rw [List.getLast?_cons_cons, ih b]
      cases ht : t.getLast? <;> simp [ih, ht]

theorem processLines_lookup_aux (k : List Char) :
    ∀ (ls : List (List Char)) (acc : Comments),
      lookupC (List.foldl processLine acc ls) k =
        match ((ls.filterMap lineMeta).filter (fun p => decide (p.1 = k))).getLast? with
        | some p => some p.2
        | none => lookupC acc k := by
  intro ls
  induction ls with
  | nil => intro acc; rfl
  | cons l ls ih =>
      intro acc
      rw [List.foldl_cons, ih]
      match hml : lineMeta l with
      | none => simp [List.filterMap_cons, hml, processLine]
      | some (k0, m) =>
          by_cases hk : k0 = k
          · subst hk
            simp only [List.filterMap_cons, hml, List.filter_cons, decide_eq_true_eq,
              if_pos rfl, if_true, processLine]
            rw [getLast?_cons_eq]
            cases hlast :
                ((ls.filterMap lineMeta).filter (fun p => decide (p.1 = k0))).getLast? with
            | none => simp [hlast, lookupC_assocSet_self]
            | some p => simp [hlast]
          · have hkd : (decide (k0 = k)) = false := by simp [hk]
            simp only [List.filterMap_cons, hml, List.filter_cons, hkd, processLine]
            cases hlast :
                ((ls.filterMap lineMeta).filter (fun p => decide (p.1 = k))).getLast? with
            | none => simp [hlast, lookupC_assocSet_ne _ _ _ _ hk]
            | some p => simp [hlast]

/-- C9.  The metadata mapping of `parse_toml_comments` is flat, keyed only
by the identifier: for every key, the entry in the final mapping is the
metadata of the LAST line of the file that matches the assignment-comment
regex with that identifier (a later occurrence, e.g. in another section,
overwrites an earlier one), and there is no entry when no line matches. -/
theorem C9_last_occurrence_wins (ls : List (List Char)) (k : List Char) :
    lookupC (parse_toml_comments (ReadOutcome.ok ls)) k =
      (((ls.filterMap lineMeta).filter (fun p => decide (p.1 = k))).getLast?).map
        Prod.snd := by
  have h := processLines_lookup_aux k ls []
  rw [show parse_toml_comments (ReadOutcome.ok ls) = processLines ls from rfl,
    processLines, h]
  cases hlast :
      ((ls.filterMap lineMeta).filter (fun p => decide (p.1 = k))).getLast? with
  | none => simp [lookupC]
  | some p => simp

/-! ### Heap model for the mutable TOML document
(`enrich_toml_data`, generate_docs.py lines 52-70, and the
`input_parameters` post-pass of `process_toml_files`, lines 169-182)

Python dict objects that may be aliased and mutated are modelled by a heap:
a dict value is either a scalar or a reference (address) to a dictionary
stored in the heap.  `dict(raw_data)` (a shallow copy) allocates a new
top-level dict holding the same entries — in particular the same section
references — which is exactly Python's aliasing behaviour. -/

/-- Scalar TOML values. -/
inductive Prim where
  | pstr : List Char → Prim
  | pint : Int → Prim
  | pbool : Bool → Prim
deriving DecidableEq, Repr

/-- A value stored in a dict: a scalar, or a reference to a heap dict. -/
inductive HObj where
  | prim : Prim → HObj
  | ref : Nat → HObj
deriving DecidableEq, Repr

/-- A Python dict, as an insertion-ordered association list. -/
abbrev HDict := List (List Char × HObj)

/-- The heap: allocated dicts by address, plus the next fresh address. -/
structure PyHeap where
  mem : List (Nat × HDict)
  next : Nat
deriving DecidableEq, Repr

/-- Read the dict at an address. -/
def PyHeap.get? (h : PyHeap) (a : Nat) : Option HDict := lookupC h.mem a

/-- Overwrite the dict at an address (in-place mutation of that object). -/
def PyHeap.set (h : PyHeap) (a : Nat) (d : HDict) : PyHeap :=
  { mem := assocSet h.mem a d, next := h.next }

/-- Allocate a fresh dict object, returning the new heap and its address. -/
def PyHeap.alloc (h : PyHeap) (d : HDict) : PyHeap × Nat :=
  ({ mem := h.mem ++ [(h.next, d)], next := h.next + 1 }, h.next)

/-- Sanity of a heap: every allocated address is below `next`, and addresses
are unique. -/
def heapWf (h : PyHeap) : Prop :=
  (∀ p ∈ h.mem, p.1 < h.next) ∧ (h.mem.map Prod.fst).Nodup

/-- The wrapper dict `{'value': old, 'unit': u, 'description': d}`. -/
def wrapDict (old : HObj) (u d : List Char) : HDict :=
  [(strL "value", old),
   (strL "unit", HObj.prim (Prim.pstr u)),
   (strL "description", HObj.prim (Prim.pstr d))]

/-- Inner loop of `enrich_toml_data` over the snapshot
`list(data[section_name].keys())`: every key present in `comments` has its
current value replaced by a freshly allocated wrapper dict.  A failed dict
read (impossible in the program's reachable states) is modelled as `none`,
i.e. an uncaught exception. -/
def enrichKeys (h : PyHeap) (a : Nat) (comments : Comments) :
    List (List Char) → Option PyHeap
  | [] => some h
  | k :: ks =>
      match lookupC comments k with
      | none => enrichKeys h a comments ks
      | some ud =>
          match h.get? a with
          | none => none
          | some sec =>
              match lookupC sec k with
              | none => none
              | some old =>
                  let p := h.alloc (wrapDict old ud.1 ud.2)
                  enrichKeys (p.1.set a (assocSet sec k (HObj.ref p.2)))
                    a comments ks
/-- Outer loop of `enrich_toml_data` over the section names of the document:
excluded sections and non-dict section values are skipped; for a section
dict, `enrichKeys` runs over the snapshot of its keys. -/
def enrichSections (h : PyHeap) (docA : Nat) (comments : Comments)
    (ex : List (List Char)) : List (List Char) → Option PyHeap
  | [] => some h
  | s :: rest =>
      if s ∈ ex then enrichSections h docA comments ex rest
      else
        match h.get? docA with
        | none => none
        | some top =>
            match lookupC top s with
            | none => none
            | some (HObj.prim _) => enrichSections h docA comments ex rest
            | some (HObj.ref a) =>
                match h.get? a with
                | none => none
                | some sec =>
                    match enrichKeys h a comments (sec.map Prod.fst) with
                    | none => none
                    | some h2 => enrichSections h2 docA comments ex rest

/-- Model of `enrich_toml_data(data, comments, exclude_sections)`
(generate_docs.py lines 52-70).  `data` is the document dict at address
`docA`; `none` for `excl` is Python's `exclude_sections=None`, defaulted to
`{'additional_checks'}`.  The function returns its (mutated) argument, so
the model returns only the updated heap. -/
def enrich_toml_data (h : PyHeap) (docA : Nat) (comments : Comments)
    (excl : Option (List (List Char))) : Option PyHeap :=
  let ex := excl.getD [strL "additional_checks"]
  match h.get? docA with
  | none => none
  | some top => enrichSections h docA comments ex (top.map Prod.fst)

/-- Addresses of the dict-valued entries of a top-level dict. -/
def topRefAddrs (top : HDict) : List Nat :=
  top.filterMap (fun p => match p.2 with
    | HObj.ref a => some a
    | _ => none)

/-- Addresses of the sections of `top` that carry one of the given names,
are not excluded, and hold a dict: exactly the objects `enrich_toml_data`
may write to. -/
def inclAddrs (top : HDict) (ex : List (List Char)) (snames : List (List Char)) :
    List Nat :=
  snames.filterMap (fun s =>
    if s ∈ ex then none
    else match lookupC top s with
      | some (HObj.ref a) => some a
      | _ => none)

/-- Every dict-valued entry of `top` points to an allocated dict with
unique keys. -/
def SecsOk (h : PyHeap) (top : HDict) : Prop :=
  ∀ p ∈ top, ∀ a, p.2 = HObj.ref a →
    ∃ sec, h.get? a = some sec ∧ (sec.map Prod.fst).Nodup

/-- Boolean check of one dict entry value for `secsOkB`. -/
def secOkB (h : PyHeap) : HObj → Bool
  | HObj.ref a =>
      match h.get? a with
      | some sec => decide ((sec.map Prod.fst).Nodup)
      | none => false
  | _ => true

/-- Boolean form of `SecsOk`, so that witnesses can discharge it by
evaluation. -/
def secsOkB (h : PyHeap) (top : HDict) : Bool :=
  top.all (fun p => secOkB h p.2)

theorem secsOkB_ok {h : PyHeap} {top : HDict} (hb : secsOkB h top = true) :
    SecsOk h top := by
  intro p hp a ha
  have h2 := (List.all_eq_true.mp hb) p hp
  rw [ha] at h2
  match hg : h.get? a with
  | none => simp [secOkB, hg] at h2
  | some sec =>
      simp [secOkB, hg] at h2
      exact ⟨sec, rfl, h2⟩

/-- Sanity of the document under enrichment, bundling what the external
TOML parser guarantees about `raw_data`: a sane heap, a document dict whose
keys are unique, sections that are distinct objects, none of them the
document itself, each an allocated dict with unique keys. -/
def docWf (h : PyHeap) (docA : Nat) (top : HDict) : Prop :=
  heapWf h ∧ h.get? docA = some top ∧ (top.map Prod.fst).Nodup ∧
    (topRefAddrs top).Nodup ∧ docA ∉ topRefAddrs top ∧ secsOkB h top = true

/-- The section name `'input_parameters'`. -/
def ipKey : List Char := strL "input_parameters"

/-- Loop body of the `input_parameters` post-pass of `process_toml_files`
(generate_docs.py lines 169-182), iterating over a snapshot of
`raw_data['input_parameters'].items()`: a key is wrapped only when it is
missing from `data.get('input_parameters', {})`; `none` models an uncaught
exception (subscripting a non-dict). -/
def postPassLoop (h : PyHeap) (dataA : Nat) (comments : Comments) :
    List (List Char × HObj) → Option PyHeap
  | [] => some h
  | (k, v) :: rest =>
      match h.get? dataA with
      | none => none
      | some data =>
          let ipdict : HDict :=
            match lookupC data ipKey with
            | some (HObj.ref a) => (h.get? a).getD []
            | _ => []
          if (lookupC ipdict k).isSome then postPassLoop h dataA comments rest
          else
            let ud := lookupC comments k
            let u := (ud.map Prod.fst).getD []
            let dsc := (ud.map Prod.snd).getD []
            match lookupC data ipKey with
            | some (HObj.ref a) =>
                match h.get? a with
                | none => none
                | some ipd =>
                    let p := h.alloc (wrapDict v u dsc)
                    postPassLoop (p.1.set a (assocSet ipd k (HObj.ref p.2)))
                      dataA comments rest
            | some (HObj.prim _) => none
            | none =>
                let pe := h.alloc []
                let h1 := pe.1.set dataA (assocSet data ipKey (HObj.ref pe.2))
                let pw := h1.alloc (wrapDict v u dsc)
                postPassLoop (pw.1.set pe.2 (assocSet [] k (HObj.ref pw.2)))
                  dataA comments rest

/-- The `input_parameters` post-pass: guarded by
`'input_parameters' in raw_data and isinstance(raw_data['input_parameters'], dict)`. -/
def postPass (h : PyHeap) (rawA dataA : Nat) (comments : Comments) :
    Option PyHeap :=
  match h.get? rawA with
  | none => none
  | some raw =>
      match lookupC raw ipKey with
      | some (HObj.ref a) =>
          match h.get? a with
          | none => none
          | some ipsec => postPassLoop h dataA comments ipsec
      | _ => some h

/-- The per-file data-enrichment slice of `process_toml_files`
(generate_docs.py lines 156-182): `data = enrich_toml_data(dict(raw_data),
comments, exclude_sections={'additional_checks'})` — note `dict(raw_data)`
is a shallow copy, so `data` and `raw_data` share their section dict
objects — followed by the `input_parameters` post-pass.  Returns the final
heap and the address of `data`. -/
def processFileData (h : PyHeap) (rawA : Nat) (comments : Comments) :
    Option (PyHeap × Nat) :=
  match h.get? rawA with
  | none => none
  | some raw =>
      let p := h.alloc raw
      match enrich_toml_data p.1 p.2 comments (some [strL "additional_checks"]) with
      | none => none
      | some h2 =>
          (postPass h2 rawA p.2 comments).map (fun h3 => (h3, p.2))

/-- The per-file `try`/`except` loop of `process_toml_files`
(generate_docs.py lines 147-244): each file's body either produces a record
appended to `equipment_list` or raises, in which case the exception is
caught, reported (print not modelled) and the loop continues.  The body of
one file is modelled by its outcome. -/
def batchLoop {R : Type} : List R → List (Option R) → List R
  | acc, [] => acc
  | acc, some r :: rest => batchLoop (acc ++ [r]) rest
  | acc, none :: rest => batchLoop acc rest

/-- The whole batch over the sorted file list, starting from the empty
`equipment_list`. -/
def process_batch {R : Type} (files : List (Option R)) : List R :=
  batchLoop [] files

instance heapWfDec (h : PyHeap) : Decidable (heapWf h) :=
  decidable_of_iff
    ((∀ p ∈ h.mem, p.1 < h.next) ∧ (h.mem.map Prod.fst).Nodup) Iff.rfl

instance docWfDec (h : PyHeap) (docA : Nat) (top : HDict) :
    Decidable (docWf h docA top) :=
  decidable_of_iff
    (heapWf h ∧ h.get? docA = some top ∧ (top.map Prod.fst).Nodup ∧
      (topRefAddrs top).Nodup ∧ docA ∉ topRefAddrs top ∧ secsOkB h top = true)
    Iff.rfl

theorem get?_set (h : PyHeap) (a b : Nat) (d : HDict) :
    (h.set a d).get? b = if a = b then some d else h.get? b := by
  simp [PyHeap.set, PyHeap.get?, lookupC_assocSet]

theorem get?_alloc_of_isSome {h : PyHeap} {b : Nat} (d : HDict)
    (hb : (h.get? b).isSome) :
    (h.alloc d).1.get? b = h.get? b := by
  obtain ⟨v, hv⟩ := Option.isSome_iff_exists.mp hb
  simp only [PyHeap.alloc, PyHeap.get?] at *
  rw [lookupC_append_some _ hv, hv]

theorem get?_alloc_new {h : PyHeap} (d : HDict) (hwf : heapWf h) :
    (h.alloc d).1.get? h.next = some d := by
  have hnone : lookupC h.mem h.next = none := by
    apply lookupC_none_of_not_mem_keys
    intro hmem
    obtain ⟨p, hp, hfst⟩ := List.mem_map.mp hmem
    have := hwf.1 p hp
    omega
  simp only [PyHeap.alloc, PyHeap.get?]
  rw [lookupC_append_none _ hnone]
  simp [lookupC]

theorem lt_next_of_isSome {h : PyHeap} {b : Nat} (hwf : heapWf h)
    (hb : (h.get? b).isSome) : b < h.next := by
  obtain ⟨v, hv⟩ := Option.isSome_iff_exists.mp hb
  have hmem := lookupC_mem (by exact hv : lookupC h.mem b = some v)
  exact hwf.1 (b, v) hmem

theorem heapWf_set {h : PyHeap} {a : Nat} (d : HDict) (hwf : heapWf h)
    (ha : (h.get? a).isSome) : heapWf (h.set a d) := by
  have hkeys : (assocSet h.mem a d).map Prod.fst = h.mem.map Prod.fst :=
    assocSet_keys d ha
  constructor
  · intro p hp
    have hfst : p.1 ∈ h.mem.map Prod.fst := by
      rw [← hkeys]
      exact List.mem_map.mpr ⟨p, hp, rfl⟩
    obtain ⟨q, hq, hqf⟩ := List.mem_map.mp hfst
    have := hwf.1 q hq
    simp only [PyHeap.set]
    omega
  · simpa only [PyHeap.set, hkeys] using hwf.2

theorem heapWf_alloc {h : PyHeap} (d : HDict) (hwf : heapWf h) :
    heapWf (h.alloc d).1 := by
  constructor
  · intro p hp
    simp only [PyHeap.alloc, List.mem_append, List.mem_singleton] at hp
    rcases hp with hp | hp
    · have := hwf.1 p hp
      simp only [PyHeap.alloc]
      omega
    · subst hp
      simp [PyHeap.alloc]
  · simp only [PyHeap.alloc, List.map_append, List.map_cons, List.map_nil]
    rw [List.nodup_append]
    refine ⟨hwf.2, List.nodup_singleton _, ?_⟩
    intro x hx hy
    simp only [List.mem_singleton] at hy
    subst hy
    obtain ⟨p, hp, hfst⟩ := List.mem_map.mp hx
    have := hwf.1 p hp
    omega

theorem next_set (h : PyHeap) (a : Nat) (d : HDict) :
    (h.set a d).next = h.next := rfl

theorem next_alloc (h : PyHeap) (d : HDict) :
    (h.alloc d).1.next = h.next + 1 := rfl

theorem enrichKeys_char (comments : Comments) :
    ∀ (ks : List (List Char)) (h : PyHeap) (a : Nat) (sec : HDict),
      heapWf h → h.get? a = some sec → ks.Nodup →
      (∀ k ∈ ks, (lookupC sec k).isSome) →
      ∃ h' sec',
        enrichKeys h a comments ks = some h' ∧
        heapWf h' ∧
        h.next ≤ h'.next ∧
        h'.get? a = some sec' ∧
        sec'.map Prod.fst = sec.map Prod.fst ∧
        (∀ b, b ≠ a → (h.get? b).isSome → h'.get? b = h.get? b) ∧
        (∀ k, (k ∉ ks ∨ lookupC comments k = none) →
            lookupC sec' k = lookupC sec k) ∧
        (∀ k u d old, k ∈ ks → lookupC comments k = some (u, d) →
            lookupC sec k = some old →
            ∃ na, h.next ≤ na ∧ lookupC sec' k = some (HObj.ref na) ∧
              h'.get? na = some (wrapDict old u d)) := by
  intro ks
  induction ks with
  | nil =>
      intro h a sec hwf hget _ _
      refine ⟨h, sec, rfl, hwf, Nat.le_refl _, hget, rfl, ?_, ?_, ?_⟩
      · intro b _ _; rfl
      · intro k _; rfl
      · intro k u d old hk; simp at hk
  | cons k ks ih =>
      intro h a sec hwf hget hnd hsome
      obtain ⟨hknotin, hndks⟩ := List.nodup_cons.mp hnd
      match hcm : lookupC comments k with
      | none =>
          have hstep : enrichKeys h a comments (k :: ks) =
              enrichKeys h a comments ks := by
            simp [enrichKeys, hcm]
          obtain ⟨h', sec', heq, hwf', hle, hget', hkeys', hframe, hunt, hwrap⟩ :=
            ih h a sec hwf hget hndks
              (fun k' hk' => hsome k' (List.mem_cons_of_mem _ hk'))
          refine ⟨h', sec', hstep.trans heq, hwf', hle, hget', hkeys', hframe,
            ?_, ?_⟩
          · intro k' hdisj
            rcases hdisj with hnm | hcn
            · exact hunt k' (Or.inl (fun hk' => hnm (List.mem_cons_of_mem _ hk')))
            · exact hunt k' (Or.inr hcn)
          · intro k'' u d old hmem hcmk hold
            rcases List.mem_cons.mp hmem with rfl | hmem'
            · rw [hcm] at hcmk; exact absurd hcmk (by simp)
            · exact hwrap k'' u d old hmem' hcmk hold
      | some ud =>
          obtain ⟨old, hold⟩ :=
            Option.isSome_iff_exists.mp (hsome k (List.mem_cons_self k ks))
          have ha_is : (h.get? a).isSome := by rw [hget]; rfl
          have a_lt : a < h.next := lt_next_of_isSome hwf ha_is
          have hstep : enrichKeys h a comments (k :: ks) =
              enrichKeys ((h.alloc (wrapDict old ud.1 ud.2)).1.set a
                (assocSet sec k (HObj.ref h.next))) a comments ks := by
            simp [enrichKeys, hcm, hget, hold, PyHeap.alloc]
          have hwf1 : heapWf (h.alloc (wrapDict old ud.1 ud.2)).1 :=
            heapWf_alloc _ hwf
          have h1geta : (h.alloc (wrapDict old ud.1 ud.2)).1.get? a = some sec := by
            rw [get?_alloc_of_isSome _ ha_is, hget]
          have hwfs : heapWf ((h.alloc (wrapDict old ud.1 ud.2)).1.set a
              (assocSet sec k (HObj.ref h.next))) :=
            heapWf_set _ hwf1 (by rw [h1geta]; rfl)
          have hgets : ((h.alloc (wrapDict old ud.1 ud.2)).1.set a
              (assocSet sec k (HObj.ref h.next))).get? a =
              some (assocSet sec k (HObj.ref h.next)) := by
            rw [get?_set]; simp
          have hsome1 : ∀ k' ∈ ks,
              (lookupC (assocSet sec k (HObj.ref h.next)) k').isSome := by
            intro k' hk'
            by_cases hkk : k = k'
            · subst hkk; rw [lookupC_assocSet_self]; rfl
            · rw [lookupC_assocSet_ne _ _ _ _ hkk]
              exact hsome k' (List.mem_cons_of_mem _ hk')
          obtain ⟨h', sec', heq, hwf', hle, hget', hkeys', hframe, hunt, hwrap⟩ :=
            ih ((h.alloc (wrapDict old ud.1 ud.2)).1.set a
                (assocSet sec k (HObj.ref h.next))) a
              (assocSet sec k (HObj.ref h.next)) hwfs hgets hndks hsome1
          have hnextset : ((h.alloc (wrapDict old ud.1 ud.2)).1.set a
              (assocSet sec k (HObj.ref h.next))).next = h.next + 1 := rfl
          have hframe0 : ∀ b, b ≠ a → (h.get? b).isSome →
              ((h.alloc (wrapDict old ud.1 ud.2)).1.set a
                (assocSet sec k (HObj.ref h.next))).get? b = h.get? b := by
            intro b hba hbs
            rw [get?_set, if_neg (fun he => hba he.symm)]
            exact get?_alloc_of_isSome _ hbs
          have hgetna0 : ((h.alloc (wrapDict old ud.1 ud.2)).1.set a
              (assocSet sec k (HObj.ref h.next))).get? h.next =
              some (wrapDict old ud.1 ud.2) := by
            rw [get?_set, if_neg (by omega)]
            exact get?_alloc_new _ hwf
          refine ⟨h', sec', hstep.trans heq, hwf', ?_, hget', ?_, ?_, ?_, ?_⟩
          · rw [hnextset] at hle; omega
          · rw [hkeys', assocSet_keys _ (by rw [hold]; rfl)]
          · intro b hba hbs
            rw [hframe b hba (by rw [hframe0 b hba hbs]; exact hbs),
              hframe0 b hba hbs]
          · intro k' hdisj
            have hne : k ≠ k' := by
              rcases hdisj with hnm | hcn
              · intro he; exact hnm (he ▸ List.mem_cons_self k ks)
              · intro he; rw [he, hcn] at hcm; exact absurd hcm (by simp)
            have h1 : lookupC sec' k' = lookupC (assocSet sec k (HObj.ref h.next)) k' := by
              apply hunt k'
              rcases hdisj with hnm | hcn
              · exact Or.inl (fun hk' => hnm (List.mem_cons_of_mem _ hk'))
              · exact Or.inr hcn
            rw [h1, lookupC_assocSet_ne _ _ _ _ hne]
          · intro k'' u d old'' hmem hcmk hold''
            rcases List.mem_cons.mp hmem with rfl | hmem'
            · rw [hcm] at hcmk
              obtain rfl : ud = (u, d) := Option.some.inj hcmk
              rw [hold] at hold''
              obtain rfl : old = old'' := Option.some.inj hold''
              refine ⟨h.next, Nat.le_refl _, ?_, ?_⟩
              · rw [hunt k'' (Or.inl hknotin), lookupC_assocSet_self]
              · rw [hframe h.next (by omega)
                  (by rw [hgetna0]; rfl), hgetna0]
            · have hne : k ≠ k'' := fun he => hknotin (he ▸ hmem')
              have hsec1 : lookupC (assocSet sec k (HObj.ref h.next)) k'' =
                  some old'' := by
                rw [lookupC_assocSet_ne _ _ _ _ hne]; exact hold''
              obtain ⟨na, hna_le, hna_look, hna_get⟩ :=
                hwrap k'' u d old'' hmem' hcmk hsec1
              refine ⟨na, ?_, hna_look, hna_get⟩
              rw [hnextset] at hna_le; omega

theorem mem_topRefAddrs_of_mem {top : HDict} {s : List Char} {b : Nat}
    (h : (s, HObj.ref b) ∈ top) : b ∈ topRefAddrs top := by
  apply List.mem_filterMap.mpr
  exact ⟨(s, HObj.ref b), h, rfl⟩

theorem topRefAddrs_ref_inj : ∀ (top : HDict), (topRefAddrs top).Nodup →
    ∀ {s1 s2 : List Char} {b : Nat},
      (s1, HObj.ref b) ∈ top → (s2, HObj.ref b) ∈ top → s1 = s2 := by
  intro top
  induction top with
  | nil => intro _ s1 s2 b h1 _; simp at h1
  | cons p rest ih =>
      intro hnd s1 s2 b h1 h2
      obtain ⟨k0, v0⟩ := p
      match v0 with
      | HObj.ref a0 =>
          have hcons : topRefAddrs ((k0, HObj.ref a0) :: rest) =
              a0 :: topRefAddrs rest := by
            simp [topRefAddrs, List.filterMap_cons]
          rw [hcons] at hnd
          obtain ⟨ha0, hndrest⟩ := List.nodup_cons.mp hnd
          rcases List.mem_cons.mp h1 with he1 | h1' <;>
            rcases List.mem_cons.mp h2 with he2 | h2'
          · rw [Prod.mk.injEq] at he1 he2
            rw [he1.1, he2.1]
          · exfalso
            have hb : b = a0 := by
              have := (Prod.mk.injEq _ _ _ _).mp he1
              exact HObj.ref.inj this.2
            exact ha0 (hb ▸ mem_topRefAddrs_of_mem h2')
          · exfalso
            have hb : b = a0 := by
              have := (Prod.mk.injEq _ _ _ _).mp he2
              exact HObj.ref.inj this.2
            exact ha0 (hb ▸ mem_topRefAddrs_of_mem h1')
          · exact ih hndrest h1' h2'
      | HObj.prim q =>
          have hcons : topRefAddrs ((k0, HObj.prim q) :: rest) =
              topRefAddrs rest := by
            simp [topRefAddrs, List.filterMap_cons]
          rw [hcons] at hnd
          rcases List.mem_cons.mp h1 with he1 | h1' <;>
            rcases List.mem_cons.mp h2 with he2 | h2'
          · rw [Prod.mk.injEq] at he1 he2
            rw [he1.1, he2.1]
          · exfalso
            have := (Prod.mk.injEq _ _ _ _).mp he1
            exact absurd this.2.symm (by simp)
          · exfalso
            have := (Prod.mk.injEq _ _ _ _).mp he2
            exact absurd this.2.symm (by simp)
          · exact ih hnd h1' h2'

theorem lookup_ref_inj {top : HDict} (hrefnd : (topRefAddrs top).Nodup)
    {s1 s2 : List Char} {b : Nat}
    (h1 : lookupC top s1 = some (HObj.ref b))
    (h2 : lookupC top s2 = some (HObj.ref b)) : s1 = s2 :=
  topRefAddrs_ref_inj top hrefnd (lookupC_mem h1) (lookupC_mem h2)

theorem inclAddrs_cons_ex {top : HDict} {ex : List (List Char)}
    {s : List Char} (sn : List (List Char)) (hs : s ∈ ex) :
    inclAddrs top ex (s :: sn) = inclAddrs top ex sn := by
  simp [inclAddrs, List.filterMap_cons, hs]

theorem inclAddrs_cons_ref {top : HDict} {ex : List (List Char)}
    {s : List Char} {a : Nat} (sn : List (List Char)) (hs : s ∉ ex)
    (hl : lookupC top s = some (HObj.ref a)) :
    inclAddrs top ex (s :: sn) = a :: inclAddrs top ex sn := by
  simp [inclAddrs, List.filterMap_cons, hs, hl]

theorem inclAddrs_cons_other {top : HDict} {ex : List (List Char)}
    {s : List Char} (sn : List (List Char)) (hs : s ∉ ex)
    (hl : ∀ a : Nat, lookupC top s ≠ some (HObj.ref a)) :
    inclAddrs top ex (s :: sn) = inclAddrs top ex sn := by
  match hx : lookupC top s with
  | none => simp [inclAddrs, List.filterMap_cons, hs, hx]
  | some (HObj.prim q) => simp [inclAddrs, List.filterMap_cons, hs, hx]
  | some (HObj.ref a) => exact absurd hx (hl a)

theorem mem_inclAddrs_elim {top : HDict} {ex : List (List Char)}
    {sn : List (List Char)} {b : Nat} (h : b ∈ inclAddrs top ex sn) :
    ∃ s ∈ sn, s ∉ ex ∧ lookupC top s = some (HObj.ref b) := by
  obtain ⟨s, hs, hf⟩ := List.mem_filterMap.mp h
  by_cases hex : s ∈ ex
  · simp [hex] at hf
  · refine ⟨s, hs, hex, ?_⟩
    simp only [if_neg hex] at hf
    match hx : lookupC top s with
    | none => rw [hx] at hf; simp at hf
    | some (HObj.prim q) => rw [hx] at hf; simp at hf
    | some (HObj.ref a) =>
        rw [hx] at hf
        simp at hf
        rw [hf]

theorem inclAddrs_isSome {h : PyHeap} {top : HDict} {ex sn : List (List Char)}
    {b : Nat} (hsec : SecsOk h top) (hb : b ∈ inclAddrs top ex sn) :
    (h.get? b).isSome := by
  obtain ⟨s, _, _, hl⟩ := mem_inclAddrs_elim hb
  obtain ⟨sec, hg, _⟩ := hsec (s, HObj.ref b) (lookupC_mem hl) b rfl
  rw [hg]
  rfl

theorem enrichSections_char (comments : Comments) (ex : List (List Char)) :
    ∀ (snames : List (List Char)) (h : PyHeap) (docA : Nat) (top : HDict),
      heapWf h → h.get? docA = some top →
      (top.map Prod.fst).Nodup → (topRefAddrs top).Nodup →
      docA ∉ topRefAddrs top → SecsOk h top →
      snames.Nodup → (∀ s ∈ snames, (lookupC top s).isSome) →
      ∃ h',
        enrichSections h docA comments ex snames = some h' ∧
        heapWf h' ∧ h.next ≤ h'.next ∧
        h'.get? docA = some top ∧
        (∀ b, (h.get? b).isSome → b ∉ inclAddrs top ex snames →
            h'.get? b = h.get? b) ∧
        (∀ s a sec, s ∈ snames → s ∉ ex → lookupC top s = some (HObj.ref a) →
            h.get? a = some sec →
            ∃ sec', h'.get? a = some sec' ∧
              sec'.map Prod.fst = sec.map Prod.fst ∧
              (∀ k, lookupC comments k = none →
                  lookupC sec' k = lookupC sec k) ∧
              (∀ k u d old, lookupC comments k = some (u, d) →
                  lookupC sec k = some old →
                  ∃ na, lookupC sec' k = some (HObj.ref na) ∧
                    h'.get? na = some (wrapDict old u d))) := by
  intro snames
  induction snames with
  | nil =>
      intro h docA top hwf hgd _ _ _ _ _ _
      refine ⟨h, rfl, hwf, Nat.le_refl _, hgd, fun b _ _ => rfl, ?_⟩
      intro s a sec hs
      simp at hs
  | cons s snames ih =>
      intro h docA top hwf hgd hndk hndr hdocni hsec hnds hlooks
      obtain ⟨hsni, hndsn⟩ := List.nodup_cons.mp hnds
      by_cases hex : s ∈ ex
      · have hstep : enrichSections h docA comments ex (s :: snames) =
            enrichSections h docA comments ex snames := by
          simp [enrichSections, hex]
        obtain ⟨h', heq, hwf', hle, hgd', hframe, hsecs⟩ :=
          ih h docA top hwf hgd hndk hndr hdocni hsec hndsn
            (fun s' hs' => hlooks s' (List.mem_cons_of_mem _ hs'))
        refine ⟨h', hstep.trans heq, hwf', hle, hgd', ?_, ?_⟩
        · intro b hbs hbni
          apply hframe b hbs
          rw [← inclAddrs_cons_ex snames hex]
          exact hbni
        · intro s' a sec hs'mem hs'nex hl hg
          rcases List.mem_cons.mp hs'mem with rfl | hmem'
          · exact absurd hex hs'nex
          · exact hsecs s' a sec hmem' hs'nex hl hg
      · obtain ⟨v, hv⟩ :=
          Option.isSome_iff_exists.mp (hlooks s (List.mem_cons_self s snames))
        match v, hv with
        | HObj.prim q, hv =>
            have hstep : enrichSections h docA comments ex (s :: snames) =
                enrichSections h docA comments ex snames := by
              simp [enrichSections, hex, hgd, hv]
            obtain ⟨h', heq, hwf', hle, hgd', hframe, hsecs⟩ :=
              ih h docA top hwf hgd hndk hndr hdocni hsec hndsn
                (fun s' hs' => hlooks s' (List.mem_cons_of_mem _ hs'))
            refine ⟨h', hstep.trans heq, hwf', hle, hgd', ?_, ?_⟩
            · intro b hbs hbni
              apply hframe b hbs
              rw [← inclAddrs_cons_other snames hex
                (fun a he => by rw [hv] at he; exact absurd (Option.some.inj he) (by simp))]
              exact hbni
            · intro s' a sec hs'mem hs'nex hl hg
              rcases List.mem_cons.mp hs'mem with rfl | hmem'
              · rw [hv] at hl
                exact absurd (Option.some.inj hl) (by simp)
              · exact hsecs s' a sec hmem' hs'nex hl hg
        | HObj.ref a, hv =>
            have hentry : (s, HObj.ref a) ∈ top := lookupC_mem hv
            have hamem : a ∈ topRefAddrs top := mem_topRefAddrs_of_mem hentry
            have hda : docA ≠ a := fun he => hdocni (he ▸ hamem)
            obtain ⟨sec, hgeta, hndsec⟩ := hsec (s, HObj.ref a) hentry a rfl
            obtain ⟨h2, sec2, heq2, hwf2, hle2, hget2, hkeys2, hframe2, hunt2,
              hwrap2⟩ :=
              enrichKeys_char comments (sec.map Prod.fst) h a sec hwf hgeta
                hndsec (fun k hk => lookupC_isSome_of_mem_keys hk)
            have hstep : enrichSections h docA comments ex (s :: snames) =
                enrichSections h2 docA comments ex snames := by
              simp [enrichSections, hex, hgd, hv, hgeta, heq2]
            have hgd2 : h2.get? docA = some top := by
              rw [hframe2 docA hda (by rw [hgd]; rfl), hgd]
            have hsec2 : SecsOk h2 top := by
              intro p hp a' ha'
              obtain ⟨sec0, hg0, hnd0⟩ := hsec p hp a' ha'
              by_cases haa : a' = a
              · subst haa
                rw [hgeta] at hg0
                obtain rfl : sec = sec0 := Option.some.inj hg0
                exact ⟨sec2, hget2, by rw [hkeys2]; exact hndsec⟩
              · exact ⟨sec0, by rw [hframe2 a' haa (by rw [hg0]; rfl)]; exact hg0,
                  hnd0⟩
            obtain ⟨h', heq', hwf', hle', hgd', hframe', hsecs'⟩ :=
              ih h2 docA top hwf2 hgd2 hndk hndr hdocni hsec2 hndsn
                (fun s' hs' => hlooks s' (List.mem_cons_of_mem _ hs'))
            have hincl_cons : inclAddrs top ex (s :: snames) =
                a :: inclAddrs top ex snames := inclAddrs_cons_ref snames hex hv
            have ha_not_incl : a ∉ inclAddrs top ex snames := by
              intro hmem
              obtain ⟨s'', hs''mem, hs''nex, hl''⟩ := mem_inclAddrs_elim hmem
              have : s'' = s := lookup_ref_inj hndr hl'' hv
              exact hsni (this ▸ hs''mem)
            refine ⟨h', hstep.trans heq', hwf', Nat.le_trans hle2 hle', hgd',
              ?_, ?_⟩
            · intro b hbs hbni
              rw [hincl_cons] at hbni
              have hba : b ≠ a := fun he => hbni (by rw [he]; exact List.mem_cons_self _ _)
              have hbni' : b ∉ inclAddrs top ex snames :=
                fun hm => hbni (List.mem_cons_of_mem _ hm)
              have hb2 : h2.get? b = h.get? b := hframe2 b hba hbs
              rw [hframe' b (by rw [hb2]; exact hbs) hbni', hb2]
            · intro s' a' sec'' hs'mem hs'nex hl hg
              rcases List.mem_cons.mp hs'mem with rfl | hmem'
              · rw [hv] at hl
                obtain haa : a = a' := HObj.ref.inj (Option.some.inj hl)
                subst haa
                rw [hgeta] at hg
                obtain rfl : sec = sec'' := Option.some.inj hg
                have hfin : h'.get? a = some sec2 := by
                  rw [hframe' a (by rw [hget2]; rfl) ha_not_incl]
                  exact hget2
                refine ⟨sec2, hfin, hkeys2, ?_, ?_⟩
                · intro k hcn
                  exact hunt2 k (Or.inr hcn)
                · intro k u d old hcm hold
                  obtain ⟨na, hna_le, hna_look, hna_get⟩ :=
                    hwrap2 k u d old (lookupC_mem_keys hold) hcm hold
                  have hna_not : na ∉ inclAddrs top ex snames := by
                    intro hmem
                    have : na < h.next :=
                      lt_next_of_isSome hwf (inclAddrs_isSome hsec hmem)
                    omega
                  refine ⟨na, hna_look, ?_⟩
                  rw [hframe' na (by rw [hna_get]; rfl) hna_not]
                  exact hna_get
              · have haa' : a' ≠ a := by
                  intro he
                  have : s' = s := lookup_ref_inj hndr (he ▸ hl) hv
                  exact hsni (this ▸ hmem')
                have hg2 : h2.get? a' = some sec'' := by
                  rw [hframe2 a' haa' (by rw [hg]; rfl)]
                  exact hg
                exact hsecs' s' a' sec'' hmem' hs'nex hl hg2

theorem enrich_toml_data_char (h : PyHeap) (docA : Nat) (top : HDict)
    (comments : Comments) (excl : Option (List (List Char)))
    (hwf : docWf h docA top) :
    ∃ h', enrich_toml_data h docA comments excl = some h' ∧
      heapWf h' ∧ h.next ≤ h'.next ∧ h'.get? docA = some top ∧
      (∀ b, (h.get? b).isSome →
          b ∉ inclAddrs top (excl.getD [strL "additional_checks"])
            (top.map Prod.fst) →
          h'.get? b = h.get? b) ∧
      (∀ s a sec, s ∉ excl.getD [strL "additional_checks"] →
          lookupC top s = some (HObj.ref a) → h.get? a = some sec →
          ∃ sec', h'.get? a = some sec' ∧
            sec'.map Prod.fst = sec.map Prod.fst ∧
            (∀ k, lookupC comments k = none →
                lookupC sec' k = lookupC sec k) ∧
            (∀ k u d old, lookupC comments k = some (u, d) →
                lookupC sec k = some old →
                ∃ na, lookupC sec' k = some (HObj.ref na) ∧
                  h'.get? na = some (wrapDict old u d))) := by
  obtain ⟨hh, hgd, hndk, hndr, hdni, hsb⟩ := hwf
  obtain ⟨h', heq, hwf', hle, hgd', hframe, hsecs⟩ :=
    enrichSections_char comments (excl.getD [strL "additional_checks"])
      (top.map Prod.fst) h docA top hh hgd hndk hndr hdni (secsOkB_ok hsb)
      hndk (fun s hs => lookupC_isSome_of_mem_keys hs)
  refine ⟨h', ?_, hwf', hle, hgd', hframe, ?_⟩
  · simp only [enrich_toml_data, hgd]
    exact heq
  · intro s a sec hsnex hl hg
    exact hsecs s a sec (lookupC_mem_keys hl) hsnex hl hg

/-- The example document for the enrichment claims: one section `s` at
address 1 with one key `k` carrying comment metadata. -/
def exDoc : PyHeap :=
  { mem := [(0, [(strL "s", HObj.ref 1)]),
            (1, [(strL "k", HObj.prim (Prim.pint 5))])],
    next := 2 }

/-- Comment metadata for `exDoc`: key `k` has unit `u` and description `w`. -/
def exComments : Comments := [(strL "k", (strL "u", strL "w"))]

/-- State of `exDoc` after one run of `enrich_toml_data`: the section dict at
address 1 now maps `k` to a reference to the wrapper allocated at 2. -/
def exDocOnce : PyHeap :=
  { mem := [(0, [(strL "s", HObj.ref 1)]),
            (1, [(strL "k", HObj.ref 2)]),
            (2, wrapDict (HObj.prim (Prim.pint 5)) (strL "u") (strL "w"))],
    next := 3 }

/-- State of `exDocOnce` after a second run of `enrich_toml_data`: `k` is wrapped
again, the new wrapper's `value` field holding the old wrapper. -/
def exDocTwice : PyHeap :=
  { mem := [(0, [(strL "s", HObj.ref 1)]),
            (1, [(strL "k", HObj.ref 3)]),
            (2, wrapDict (HObj.prim (Prim.pint 5)) (strL "u") (strL "w")),
            (3, wrapDict (HObj.ref 2) (strL "u") (strL "w"))],
    next := 4 }

/-- C3 counterexample.  `enrich_toml_data` mutates the document passed to
it: after the call, the section dict at address 1 — reachable from the
document that was passed as the argument — holds different entries than
before (`k` now maps to a wrapper reference instead of the raw `5`), so the
claim that the argument "holds the same entries after the call as before"
is false. -/
theorem C3_enrich_mutates_counterexample :
    enrich_toml_data exDoc 0 exComments none = some exDocOnce ∧
    PyHeap.get? exDocOnce 1 ≠ PyHeap.get? exDoc 1 := by
  refine ⟨by decide, by decide⟩

/-- C3 (amended).  `enrich_toml_data` is not pure: it mutates its argument
in place and returns that same object (see the counterexample).  Its side
effects are, however, confined to the included section dicts of the
document and to freshly allocated wrapper records: the top-level mapping
and every other previously allocated object are unchanged. -/
theorem C3_enrich_effects_confined (h : PyHeap) (docA : Nat) (top : HDict)
    (comments : Comments) (excl : Option (List (List Char)))
    (hwf : docWf h docA top) :
    ∃ h', enrich_toml_data h docA comments excl = some h' ∧
      h'.get? docA = some top ∧
      (∀ b, (h.get? b).isSome →
          b ∉ inclAddrs top (excl.getD [strL "additional_checks"])
            (top.map Prod.fst) →
          h'.get? b = h.get? b) := by
  obtain ⟨h', heq, _, _, hgd', hframe, _⟩ :=
    enrich_toml_data_char h docA top comments excl hwf
  exact ⟨h', heq, hgd', hframe⟩

/-- Witness for C3 (amended) on the concrete document `exDoc`. -/
theorem C3_enrich_effects_confined_witness :
    ∃ h', enrich_toml_data exDoc 0 exComments none = some h' ∧
      h'.get? 0 = some [(strL "s", HObj.ref 1)] ∧
      (∀ b, (exDoc.get? b).isSome →
          b ∉ inclAddrs [(strL "s", HObj.ref 1)] [strL "additional_checks"]
            ([(strL "s", HObj.ref 1)].map Prod.fst) →
          h'.get? b = exDoc.get? b) :=
  C3_enrich_effects_confined exDoc 0 [(strL "s", HObj.ref 1)] exComments none
    (by decide)

/-- C4.  `enrich_toml_data` raises no exception (it returns a document),
leaves every section named in the exclusion set (default: the
`additional_checks` section) entirely unchanged — the section's dict holds
exactly the entries it held before — and inside every included section
every key absent from the comment-metadata mapping keeps its entry
unchanged (same raw value, no wrapper). -/
theorem C4_excluded_and_unmatched_untouched (h : PyHeap) (docA : Nat)
    (top : HDict) (comments : Comments) (excl : Option (List (List Char)))
    (hwf : docWf h docA top) :
    ∃ h', enrich_toml_data h docA comments excl = some h' ∧
      h'.get? docA = some top ∧
      (∀ s b, s ∈ excl.getD [strL "additional_checks"] →
          lookupC top s = some (HObj.ref b) → h'.get? b = h.get? b) ∧
      (∀ s a sec k, s ∉ excl.getD [strL "additional_checks"] →
          lookupC top s = some (HObj.ref a) → h.get? a = some sec →
          lookupC comments k = none →
          ∃ sec', h'.get? a = some sec' ∧
            lookupC sec' k = lookupC sec k) := by
  have hsec : SecsOk h top := secsOkB_ok hwf.2.2.2.2.2
  have hndr : (topRefAddrs top).Nodup := hwf.2.2.2.1
  obtain ⟨h', heq, _, _, hgd', hframe, hsecs⟩ :=
    enrich_toml_data_char h docA top comments excl hwf
  refine ⟨h', heq, hgd', ?_, ?_⟩
  · intro s b hsex hl
    have hbis : (h.get? b).isSome := by
      obtain ⟨sec, hg, _⟩ := hsec (s, HObj.ref b) (lookupC_mem hl) b rfl
      rw [hg]
      rfl
    have hbni : b ∉ inclAddrs top (excl.getD [strL "additional_checks"])
        (top.map Prod.fst) := by
      intro hmem
      obtain ⟨s'', _, hs''nex, hl''⟩ := mem_inclAddrs_elim hmem
      exact hs''nex ((lookup_ref_inj hndr hl'' hl) ▸ hsex)
    exact hframe b hbis hbni
  · intro s a sec k hsnex hl hg hcn
    obtain ⟨sec', hga, _, hunt, _⟩ := hsecs s a sec hsnex hl hg
    exact ⟨sec', hga, hunt k hcn⟩

/-- The example document for the C4 witness: an included `shaker` section
and the excluded `additional_checks` section. -/
def exDoc4 : PyHeap :=
  { mem := [(0, [(strL "shaker", HObj.ref 1),
                 (strL "additional_checks", HObj.ref 2)]),
            (1, [(strL "k", HObj.prim (Prim.pint 5)),
                 (strL "m", HObj.prim (Prim.pint 7))]),
            (2, [(strL "c1", HObj.prim (Prim.pstr (strL "a > b")))])],
    next := 3 }

/-- The top-level dict of `exDoc4`. -/
def exTop4 : HDict :=
  [(strL "shaker", HObj.ref 1), (strL "additional_checks", HObj.ref 2)]

/-- Witness for C4 on the concrete document `exDoc4`. -/
theorem C4_excluded_and_unmatched_untouched_witness :
    ∃ h', enrich_toml_data exDoc4 0 exComments none = some h' ∧
      h'.get? 0 = some exTop4 ∧
      (∀ s b, s ∈ (none : Option (List (List Char))).getD
            [strL "additional_checks"] →
          lookupC exTop4 s = some (HObj.ref b) →
          h'.get? b = exDoc4.get? b) ∧
      (∀ s a sec k, s ∉ (none : Option (List (List Char))).getD
            [strL "additional_checks"] →
          lookupC exTop4 s = some (HObj.ref a) → exDoc4.get? a = some sec →
          lookupC exComments k = none →
          ∃ sec', h'.get? a = some sec' ∧
            lookupC sec' k = lookupC sec k) :=
  C4_excluded_and_unmatched_untouched exDoc4 0 exTop4 exComments none
    (by decide)

/-- C6 counterexample.  Applying `enrich_toml_data` a second time to the
already-enriched `exDocOnce` (same metadata, same exclusion set) does NOT
leave the enriched entry unchanged: the section dict at address 1 changes
again (`k` moves from the first wrapper at 2 to a new double wrapper at 3),
so the claim that re-enrichment leaves every already-wrapped entry equal to
its once-enriched form is false. -/
theorem C6_double_wrap_counterexample :
    enrich_toml_data exDoc 0 exComments none = some exDocOnce ∧
    enrich_toml_data exDocOnce 0 exComments none = some exDocTwice ∧
    PyHeap.get? exDocTwice 1 ≠ PyHeap.get? exDocOnce 1 := by
  refine ⟨by decide, by decide, by decide⟩

/-- C6 (amended).  Re-applying `enrich_toml_data` is not idempotent: every
included-section entry whose key is in the metadata mapping is wrapped
AGAIN — the entry becomes a reference to a fresh
`{value, unit, description}` record whose `value` field holds whatever the
entry held before, so on an already-enriched document the once-enriched
record is double-wrapped. -/
theorem C6_enrich_rewraps (h : PyHeap) (docA : Nat) (top : HDict)
    (comments : Comments) (excl : Option (List (List Char))) (h' : PyHeap)
    (s : List Char) (a : Nat) (sec : HDict) (k u d : List Char) (old : HObj)
    (hwf : docWf h docA top)
    (henr : enrich_toml_data h docA comments excl = some h')
    (hs : s ∉ excl.getD [strL "additional_checks"])
    (hl : lookupC top s = some (HObj.ref a))
    (hg : h.get? a = some sec)
    (hcm : lookupC comments k = some (u, d))
    (hold : lookupC sec k = some old) :
    ∃ sec' na, h'.get? a = some sec' ∧
      lookupC sec' k = some (HObj.ref na) ∧
      h'.get? na = some (wrapDict old u d) := by
  obtain ⟨h'', heq, _, _, _, _, hsecs⟩ :=
    enrich_toml_data_char h docA top comments excl hwf
  rw [henr] at heq
  obtain rfl : h'' = h' := (Option.some.inj heq).symm
  obtain ⟨sec', hga, _, _, hwrap⟩ := hsecs s a sec hs hl hg
  obtain ⟨na, hlook, hget⟩ := hwrap k u d old hcm hold
  exact ⟨sec', na, hga, hlook, hget⟩

/-- Witness for C6 (amended): re-enriching the already-enriched `exDocOnce`
double-wraps the once-enriched record at address 2. -/
theorem C6_enrich_rewraps_witness :
    ∃ sec' na, PyHeap.get? exDocTwice 1 = some sec' ∧
      lookupC sec' (strL "k") = some (HObj.ref na) ∧
      PyHeap.get? exDocTwice na =
        some (wrapDict (HObj.ref 2) (strL "u") (strL "w")) :=
  C6_enrich_rewraps exDocOnce 0 [(strL "s", HObj.ref 1)] exComments none
    exDocTwice (strL "s") 1 [(strL "k", HObj.ref 2)] (strL "k") (strL "u")
    (strL "w") (HObj.ref 2) (by decide) (by decide) (by decide) (by decide)
    (by decide) (by decide) (by decide)

/-- A raw document with an `input_parameters` section (address 1) whose key
`p` is declared as the string `"float"` and carries no trailing comment. -/
def exRaw : PyHeap :=
  { mem := [(0, [(ipKey, HObj.ref 1)]),
            (1, [(strL "p", HObj.prim (Prim.pstr (strL "float")))])],
    next := 2 }

/-- The heap after `processFileData exRaw 0 []`: `data` is the shallow copy
at address 2, sharing the section dict at address 1 with the raw document;
the key `p` is still the raw scalar `"float"`. -/
def exRawAfter : PyHeap :=
  { mem := [(0, [(ipKey, HObj.ref 1)]),
            (1, [(strL "p", HObj.prim (Prim.pstr (strL "float")))]),
            (2, [(ipKey, HObj.ref 1)])],
    next := 3 }

/-- C2 (code bug).  Run the per-file enrichment slice of
`process_toml_files` on a raw document whose `input_parameters` key `p` has
no trailing comment (metadata mapping empty).  Because
`data = dict(raw_data)` is a shallow copy, `data['input_parameters']` and
`raw_data['input_parameters']` are the SAME dict object (both hold the
reference to address 1 here), so the post-pass guard
`key not in data.get('input_parameters', {})` is false for every key and
the post-pass wraps nothing: afterwards the enriched document still maps
`input_parameters` to the dict in which `p` is the raw scalar `"float"`,
not a `{value, unit, description}` record — contradicting the claim (and
the inline code comment) that every parameter key is guaranteed wrapped. -/
theorem C2_post_pass_never_wraps :
    processFileData exRaw 0 [] = some (exRawAfter, 2) ∧
    PyHeap.get? exRawAfter 2 = some [(ipKey, HObj.ref 1)] ∧
    PyHeap.get? exRawAfter 1 =
      some [(strL "p", HObj.prim (Prim.pstr (strL "float")))] := by
  refine ⟨by decide, by decide, by decide⟩

theorem batchLoop_eq {R : Type} :
    ∀ (l : List (Option R)) (acc : List R),
      batchLoop acc l = acc ++ l.filterMap id := by
  intro l
  induction l with
  | nil => intro acc; simp [batchLoop]
  | cons x rest ih =>
      intro acc
      match x with
      | some r => simp [batchLoop, ih, List.filterMap_cons]
      | none => simp [batchLoop, ih, List.filterMap_cons]

/-- C8.  The per-file loop of `process_toml_files` is failure-isolated: a
file whose body raises (modelled by the outcome `none`, caught by the
per-file `except`) contributes nothing and changes nothing else — the batch
produces exactly the records of the other files, every later file is still
processed, and the records collected before and after the failing file are
exactly those of the surrounding sublists. -/
theorem C8_batch_failure_isolated {R : Type} (xs ys : List (Option R)) :
    process_batch (xs ++ none :: ys) = process_batch (xs ++ ys) ∧
    process_batch (xs ++ none :: ys) = process_batch xs ++ process_batch ys := by
  constructor
  · simp [process_batch, batchLoop_eq, List.filterMap_append, List.filterMap_cons]
  · simp [process_batch, batchLoop_eq, List.filterMap_append, List.filterMap_cons]
